import Mathlib

/-!
Verification development for the HEP paper-graph crawler.

The definitions below are a shallow embedding of the Python sources
`api_request_manager.py`, `node.py` and `main.py`:

* clock readings (`time.time()`) are modelled as rationals, passed
  explicitly as a `now` argument;
* Python strings are modelled as `List Char`;
* the on-disk caches are modelled as explicit state (association list
  for the response cache, list of raw lines for the title cache);
* the network (`requests.get`) is modelled as an abstract function
  `List Char → Option Json`, `none` standing for a timeout or a
  connection error;
* Python exceptions are modelled with `Except PyErr`.
-/

/-! ## Rate limiter (`APIRequestManager.__init__`, `enqueue`,
`_remove_expired_requests`, `can_make_request`) -/

/-- Source: `self.max_requests = 15` in `APIRequestManager.__init__`. -/
def max_requests : ℕ := 15

/-- Source: `self.time_window = 5` in `APIRequestManager.__init__`. -/
def time_window : ℚ := 5

/-- Source: `APIRequestManager._remove_expired_requests`: pop from the front
of the queue while `current_time - queue[0] > self.time_window`. -/
def remove_expired_requests (now : ℚ) (q : List ℚ) : List ℚ :=
  q.dropWhile (fun x => decide (time_window < now - x))

/-- Source: `APIRequestManager.enqueue`: append the request time, then prune
expired entries. -/
def enqueue (now : ℚ) (q : List ℚ) : List ℚ :=
  remove_expired_requests now (q ++ [now])

/-- Source: `APIRequestManager.can_make_request`: true when fewer than
`max_requests` timestamps are tracked, false when the queue is full and the
oldest tracked timestamp is strictly younger than `time_window` seconds,
true otherwise. -/
def can_make_request (now : ℚ) (q : List ℚ) : Bool :=
  if q.length < max_requests then true
  else
    match q with
    | [] => true
    | x :: _ => if now - x < time_window then false else true

/-- A sequence of issuances, each admitted by `can_make_request` against the
queue state left by the previous ones (the queue evolving by `enqueue`, as in
`make_api_request`). -/
def permittedFrom (q : List ℚ) : List ℚ → Bool
  | [] => true
  | t :: ts => can_make_request t q && permittedFrom (enqueue t q) ts

/-- The queue state after a sequence of issuances. -/
def run_queue (q : List ℚ) (ts : List ℚ) : List ℚ :=
  ts.foldl (fun acc t => enqueue t acc) q

/-- Number of issuances of `ts` that fall in the half-open window
`[lo, lo + time_window)`. -/
def count_in_window (lo : ℚ) (ts : List ℚ) : ℕ :=
  (ts.filter (fun t => decide (lo ≤ t) && decide (t < lo + time_window))).length

/-- Invariant tying the queue to the list `a` of already-processed issuance
times: the queue is a suffix of `a`, holds at most `max_requests` entries, and
retains every suffix of `a` all of whose entries are within `time_window` of
every processed time. -/
def QueueInv (a q : List ℚ) : Prop :=
  q <:+ a ∧ q.length ≤ max_requests ∧
    ∀ s : List ℚ, s <:+ a → (∀ x ∈ s, ∀ y ∈ a, y - x ≤ time_window) → s <:+ q

theorem suffix_append_both {α : Type} {l₁ l₂ r : List α} (h : l₁ <:+ l₂) :
    l₁ ++ r <:+ l₂ ++ r := by
  obtain ⟨c, rfl⟩ := h
  exact ⟨c, (List.append_assoc c l₁ r).symm⟩

theorem suffix_dropWhile_of_not {α : Type} {p : α → Bool} {s l : List α}
    (hs : s <:+ l) (hnp : ∀ x ∈ s, p x = false) : s <:+ l.dropWhile p := by
  rcases List.suffix_or_suffix_of_suffix hs (List.dropWhile_suffix p) with h | h
  · exact h
  · obtain ⟨u, hu⟩ := h
    rcases u with _ | ⟨z, u⟩
    · simpa [← hu] using List.suffix_refl (l.dropWhile p)
    · exfalso
      have hl : l = l.takeWhile p ++ l.dropWhile p :=
        (List.takeWhile_append_dropWhile p l).symm
      have hsplit : (z :: u) ++ l.dropWhile p <:+ l.takeWhile p ++ l.dropWhile p := by
        rw [hu, ← hl]; exact hs
      have hz : z :: u <:+ l.takeWhile p := by
        have h1 := List.reverse_prefix.2 hsplit
        simp only [List.reverse_append] at h1
        have h2 := (List.prefix_append_right_inj (l.dropWhile p).reverse).1 h1
        exact List.reverse_prefix.1 h2
      have hzmem : z ∈ l.takeWhile p := hz.sublist.mem (List.mem_cons_self z u)
      have hptrue : p z = true := List.mem_takeWhile_imp hzmem
      have hzs : z ∈ s := by
        rw [← hu]
        exact List.mem_append_left _ (List.mem_cons_self z u)
      rw [hnp z hzs] at hptrue
      exact Bool.false_ne_true hptrue

theorem enqueue_suffix (t : ℚ) (q : List ℚ) : enqueue t q <:+ q ++ [t] :=
  List.dropWhile_suffix _

theorem queueInv_nil : QueueInv [] [] := by
  refine ⟨List.suffix_refl [], by simp [max_requests], ?_⟩
  intro s hs _
  simpa [List.suffix_nil.1 hs] using List.suffix_refl ([] : List ℚ)

theorem queueInv_step {a q : List ℚ} {t : ℚ}
    (hub : ∀ x ∈ a, x ≤ t)
    (hnb : ∀ x ∈ a, t - x ≠ time_window)
    (hinv : QueueInv a q)
    (hcan : can_make_request t q = true) :
    QueueInv (a ++ [t]) (enqueue t q) := by
  obtain ⟨hsuf, hlen, hwin⟩ := hinv
  refine ⟨(enqueue_suffix t q).trans (suffix_append_both hsuf), ?_, ?_⟩
  · -- length bound
    by_cases hq : q.length < max_requests
    · have h1 : (enqueue t q).length ≤ (q ++ [t]).length :=
        (enqueue_suffix t q).length_le
      simp only [List.length_append, List.length_singleton] at h1
      omega
    · -- full queue: the grant forces the (strictly expired) head to be pruned
      have hqe : max_requests ≤ q.length := Nat.le_of_not_lt hq
      rcases q with _ | ⟨x, rest⟩
      · simp [max_requests] at hqe
      · have hxa : x ∈ a := hsuf.sublist.mem (List.mem_cons_self x rest)
        have hold : time_window ≤ t - x := by
          have h0 : ¬(t - x < time_window) := by
            intro hlt
            simp only [can_make_request, if_neg hq, if_pos hlt] at hcan
            exact Bool.false_ne_true hcan
          linarith [not_lt.1 h0]
        have hstrict : time_window < t - x :=
          lt_of_le_of_ne hold (Ne.symm (hnb x hxa))
        have hdrop : enqueue t (x :: rest) =
            (rest ++ [t]).dropWhile (fun y => decide (time_window < t - y)) := by
          simp only [enqueue, remove_expired_requests, List.cons_append]
          rw [List.dropWhile_cons_of_pos (by simpa using hstrict)]
        have h2 : (enqueue t (x :: rest)).length ≤ (rest ++ [t]).length := by
          rw [hdrop]; exact (List.dropWhile_suffix _).length_le
        simp only [List.length_append, List.length_singleton] at h2
        simp only [List.length_cons] at hlen
        omega
  · -- in-window suffixes are retained
    intro s hs hsw
    rcases List.eq_nil_or_concat s with rfl | ⟨s', z, rfl⟩
    · exact List.nil_suffix
    · -- a nonempty suffix of `a ++ [t]` ends in `t`
      simp only [List.concat_eq_append] at hs hsw ⊢
      obtain ⟨c, hc⟩ := hs
      rw [← List.append_assoc] at hc
      have hz : t = z := by
        have h3 : ((c ++ s') ++ [z]).getLast? = (a ++ [t]).getLast? := by rw [hc]
        simp only [List.getLast?_concat, Option.some.injEq] at h3
        exact h3.symm
      subst hz
      have hca : c ++ s' = a := List.append_cancel_right hc
      have hs' : s' <:+ a := ⟨c, hca⟩
      have hs'q : s' <:+ q := by
        refine hwin s' hs' ?_
        intro x hx y hy
        exact hsw x (List.mem_append_left _ hx) y (List.mem_append_left _ hy)
      have hsq : s' ++ [t] <:+ q ++ [t] := suffix_append_both hs'q
      show s' ++ [t] <:+ enqueue t q
      simp only [enqueue, remove_expired_requests]
      refine suffix_dropWhile_of_not hsq ?_
      intro x hx
      have hxt : t - x ≤ time_window := by
        refine hsw x hx t (List.mem_append_right _ ?_)
        exact List.mem_singleton_self t
      simpa using not_lt.2 hxt

theorem run_queue_cons (q : List ℚ) (t : ℚ) (ts : List ℚ) :
    run_queue q (t :: ts) = run_queue (enqueue t q) ts := rfl

theorem run_queue_inv :
    ∀ (ts a q : List ℚ), QueueInv a q → permittedFrom q ts = true →
    (∀ x ∈ a, ∀ t ∈ ts, x ≤ t) → (∀ x ∈ a, ∀ t ∈ ts, t - x ≠ time_window) →
    List.Pairwise (· ≤ ·) ts → List.Pairwise (fun x y => y - x ≠ time_window) ts →
    QueueInv (a ++ ts) (run_queue q ts) := by
  intro ts
  induction ts with
  | nil => intro a q hinv _ _ _ _ _; simpa using hinv
  | cons t ts ih =>
    intro a q hinv hperm hub hnb hsort hnb2
    simp only [permittedFrom, Bool.and_eq_true] at hperm
    obtain ⟨hcan, hrest⟩ := hperm
    have hstep : QueueInv (a ++ [t]) (enqueue t q) :=
      queueInv_step (fun x hx => hub x hx t (List.mem_cons_self t ts))
        (fun x hx => hnb x hx t (List.mem_cons_self t ts)) hinv hcan
    have hub' : ∀ x ∈ a ++ [t], ∀ u ∈ ts, x ≤ u := by
      intro x hx u hu
      rcases List.mem_append.1 hx with h | h
      · exact hub x h u (List.mem_cons_of_mem t hu)
      · rw [List.mem_singleton.1 h]
        exact (List.pairwise_cons.1 hsort).1 u hu
    have hnb' : ∀ x ∈ a ++ [t], ∀ u ∈ ts, u - x ≠ time_window := by
      intro x hx u hu
      rcases List.mem_append.1 hx with h | h
      · exact hnb x h u (List.mem_cons_of_mem t hu)
      · rw [List.mem_singleton.1 h]
        exact (List.pairwise_cons.1 hnb2).1 u hu
    have := ih (a ++ [t]) (enqueue t q) hstep hrest hub' hnb'
      (List.pairwise_cons.1 hsort).2 (List.pairwise_cons.1 hnb2).2
    simpa [List.append_assoc] using this

theorem permittedFrom_take :
    ∀ (ts q : List ℚ) (j : ℕ), permittedFrom q ts = true →
    permittedFrom q (ts.take j) = true := by
  intro ts
  induction ts with
  | nil => intro q j _; simp [permittedFrom]
  | cons t ts ih =>
    intro q j hperm
    cases j with
    | zero => simp [permittedFrom]
    | succ j =>
      simp only [permittedFrom, Bool.and_eq_true] at hperm ⊢
      exact ⟨hperm.1, ih (enqueue t q) j hperm.2⟩

theorem permittedFrom_step :
    ∀ (ts q : List ℚ), permittedFrom q ts = true →
    ∀ (i : ℕ) (h : i < ts.length),
      can_make_request (ts.get ⟨i, h⟩) (run_queue q (ts.take i)) = true := by
  intro ts
  induction ts with
  | nil => intro q _ i h; exact absurd h (by simp)
  | cons t ts ih =>
    intro q hperm i h
    simp only [permittedFrom, Bool.and_eq_true] at hperm
    cases i with
    | zero => simpa [run_queue] using hperm.1
    | succ i =>
      have := ih (enqueue t q) hperm.2 i (by simpa using Nat.lt_of_succ_lt_succ h)
      simpa [run_queue_cons] using this

theorem rate_limit_spacing (ts : List ℚ)
    (hsort : List.Pairwise (· ≤ ·) ts)
    (hnb : List.Pairwise (fun x y => y - x ≠ time_window) ts)
    (hperm : permittedFrom [] ts = true) :
    ∀ (i : ℕ) (h : i + 15 < ts.length),
      ts.get ⟨i, by omega⟩ + time_window ≤ ts.get ⟨i + 15, h⟩ := by
  intro i h
  by_contra hlt
  push_neg at hlt
  set j := i + 15 with hj
  have hperm' : permittedFrom [] (ts.take j) = true := permittedFrom_take ts [] j hperm
  have hinv : QueueInv ([] ++ ts.take j) (run_queue [] (ts.take j)) := by
    refine run_queue_inv (ts.take j) [] [] queueInv_nil hperm' (by simp) (by simp) ?_ ?_
    · exact hsort.sublist (List.take_sublist j ts)
    · exact hnb.sublist (List.take_sublist j ts)
  rw [List.nil_append] at hinv
  obtain ⟨hsufQ, hlenQ, hwinQ⟩ := hinv
  set Q := run_queue [] (ts.take j) with hQ
  have hjlen : (ts.take j).length = j := by
    simp [List.length_take]; omega
  -- the last 15 processed issuances form a suffix that must be retained
  set s := (ts.take j).drop i with hsdef
  have hslen : s.length = 15 := by
    simp only [hsdef, List.length_drop, hjlen]; omega
  have hmem_idx : ∀ x ∈ s, ∃ (k : ℕ) (hk : k < ts.length), i ≤ k ∧ k < j ∧ x = ts.get ⟨k, hk⟩ := by
    intro x hx
    obtain ⟨k, hk, hget⟩ := List.mem_iff_getElem.1 hx
    have hk15 : k < 15 := by
      simpa [hslen] using hk
    refine ⟨i + k, by omega, by omega, by omega, ?_⟩
    rw [← hget]
    simp only [hsdef]
    rw [List.getElem_drop, List.getElem_take]
    simp [List.get_eq_getElem]
  have hmem_take : ∀ y ∈ ts.take j, ∃ (m : ℕ) (hm : m < ts.length), m < j ∧ y = ts.get ⟨m, hm⟩ := by
    intro y hy
    obtain ⟨m, hm, hget⟩ := List.mem_iff_getElem.1 hy
    have hmj : m < j := by
      simpa [hjlen] using hm
    refine ⟨m, by omega, hmj, ?_⟩
    rw [← hget]
    rw [List.getElem_take]
    simp [List.get_eq_getElem]
  have hget_mono : ∀ (p q : ℕ) (hp : p < ts.length) (hq : q < ts.length), p ≤ q →
      ts.get ⟨p, hp⟩ ≤ ts.get ⟨q, hq⟩ := by
    intro p q hp hq hpq
    exact List.Sorted.get_mono hsort (by exact hpq)
  have hsQ : s <:+ Q := by
    refine hwinQ s (List.drop_suffix i (ts.take j)) ?_
    intro x hx y hy
    obtain ⟨k, hk, hik, hkj, rfl⟩ := hmem_idx x hx
    obtain ⟨m, hm, hmj, rfl⟩ := hmem_take y hy
    have h1 : ts.get ⟨i, by omega⟩ ≤ ts.get ⟨k, hk⟩ := hget_mono i k (by omega) hk hik
    have h2 : ts.get ⟨m, hm⟩ ≤ ts.get ⟨j, by omega⟩ := hget_mono m j hm (by omega) (by omega)
    have h3 : ts.get ⟨j, by omega⟩ < ts.get ⟨i, by omega⟩ + time_window := hlt
    linarith
  have hQs : s = Q := by
    have hmr : max_requests = 15 := rfl
    refine List.IsSuffix.eq_of_length_le hsQ ?_
    omega
  -- permission for the 16th issuance contradicts a full queue of recent entries
  have hcan : can_make_request (ts.get ⟨j, by omega⟩) Q = true := by
    have h4 := permittedFrom_step ts [] hperm j (by omega)
    rw [← hQ] at h4
    exact h4
  have hQlen15 : Q.length = 15 := by
    rw [← hQs, hslen]
  obtain ⟨x, rest, hQeq⟩ : ∃ x rest, Q = x :: rest := by
    cases hQeq2 : Q with
    | nil => rw [hQeq2] at hQlen15; simp at hQlen15
    | cons x rest => exact ⟨x, rest, rfl⟩
  have hsx : s = x :: rest := hQs.trans hQeq
  have hx : x = ts.get ⟨i, by omega⟩ := by
    have h5 : s[0]? = some x := by rw [hsx]; simp
    rw [hsdef, List.getElem?_drop, Nat.add_zero,
      List.getElem?_take_of_lt (by omega : i < j),
      List.getElem?_eq_getElem (by omega : i < ts.length)] at h5
    have h6 := Option.some.inj h5
    simp only [List.get_eq_getElem]
    exact h6.symm
  rw [hQeq] at hQlen15
  have hnotlt : ¬((x :: rest).length < max_requests) := by
    rw [hQlen15]
    simp [max_requests]
  rw [hQeq] at hcan
  simp only [can_make_request, if_neg hnotlt] at hcan
  rw [hx] at hcan
  split at hcan
  · exact Bool.false_ne_true hcan
  · next hc =>
      refine hc ?_
      linarith

theorem strictMono_fin_add {n m : ℕ} (g : Fin n → Fin m) (hg : StrictMono g)
    (a b : Fin n) (hab : (a : ℕ) ≤ (b : ℕ)) :
    (g a : ℕ) + ((b : ℕ) - (a : ℕ)) ≤ (g b : ℕ) := by
  obtain ⟨k, hk⟩ : ∃ k, (b : ℕ) = (a : ℕ) + k := ⟨(b : ℕ) - (a : ℕ), by omega⟩
  clear hab
  induction k generalizing b with
  | zero =>
    have hab2 : a = b := Fin.ext (by omega)
    subst hab2
    simp
  | succ k ih =>
    have hb' : (a : ℕ) + k < n := by
      have := b.isLt
      omega
    have h1 := ih ⟨(a : ℕ) + k, hb'⟩ (by simp)
    have h2 : (⟨(a : ℕ) + k, hb'⟩ : Fin n) < b := by
      rw [Fin.lt_def]
      simp only [Fin.val_mk]
      omega
    have h3 := hg h2
    rw [Fin.lt_def] at h3
    simp only [Fin.val_mk] at h1 h3
    omega

theorem rate_limit_window (ts : List ℚ)
    (hsort : List.Pairwise (· ≤ ·) ts)
    (hnb : List.Pairwise (fun x y => y - x ≠ time_window) ts)
    (hperm : permittedFrom [] ts = true) :
    ∀ lo : ℚ, count_in_window lo ts ≤ max_requests := by
  intro lo
  by_contra hgt
  push_neg at hgt
  have hgt' : 15 < count_in_window lo ts := hgt
  set f := ts.filter (fun t => decide (lo ≤ t) && decide (t < lo + time_window)) with hf
  have hflen : 16 ≤ f.length := by
    simpa [count_in_window, hf] using hgt'
  have hsub : f.Sublist ts := List.filter_sublist ts
  obtain ⟨e, he⟩ := List.sublist_iff_exists_fin_orderEmbedding_get_eq.1 hsub
  have h0f : 0 < f.length := by omega
  have h15f : 15 < f.length := by omega
  have hk0lt : ((e ⟨0, h0f⟩ : Fin ts.length) : ℕ) < ts.length := (e ⟨0, h0f⟩).isLt
  have hmono : ((e ⟨0, h0f⟩ : Fin ts.length) : ℕ) + 15 ≤ ((e ⟨15, h15f⟩ : Fin ts.length) : ℕ) := by
    have h9 := strictMono_fin_add e e.strictMono ⟨0, h0f⟩ ⟨15, h15f⟩ (by simp)
    simpa using h9
  have hk15lt : ((e ⟨15, h15f⟩ : Fin ts.length) : ℕ) < ts.length := (e ⟨15, h15f⟩).isLt
  have hmemf : ∀ (ix : Fin f.length), lo ≤ f.get ix ∧ f.get ix < lo + time_window := by
    intro ix
    have hm : f.get ix ∈ f := List.get_mem f ix.1 ix.2
    have h10 := List.of_mem_filter hm
    simp only [Bool.and_eq_true, decide_eq_true_eq] at h10
    exact h10
  have hw0 := hmemf ⟨0, h0f⟩
  have hw15 := hmemf ⟨15, h15f⟩
  rw [he ⟨0, h0f⟩] at hw0
  rw [he ⟨15, h15f⟩] at hw15
  have hspace : ts.get ⟨((e ⟨0, h0f⟩ : Fin ts.length) : ℕ), by omega⟩ + time_window ≤
      ts.get ⟨((e ⟨0, h0f⟩ : Fin ts.length) : ℕ) + 15, by omega⟩ :=
    rate_limit_spacing ts hsort hnb hperm ((e ⟨0, h0f⟩ : Fin ts.length) : ℕ) (by omega)
  have hle : ts.get ⟨((e ⟨0, h0f⟩ : Fin ts.length) : ℕ) + 15, by omega⟩ ≤
      ts.get ⟨((e ⟨15, h15f⟩ : Fin ts.length) : ℕ), hk15lt⟩ :=
    List.Sorted.get_mono hsort (by rw [Fin.mk_le_mk]; omega)
  have he0 : ts.get ⟨((e ⟨0, h0f⟩ : Fin ts.length) : ℕ), by omega⟩ = ts.get (e ⟨0, h0f⟩) := by
    rw [Fin.eta]
  have he15 : ts.get ⟨((e ⟨15, h15f⟩ : Fin ts.length) : ℕ), hk15lt⟩ = ts.get (e ⟨15, h15f⟩) := by
    rw [Fin.eta]
  rw [he0] at hspace
  rw [he15] at hle
  linarith [hw0.1, hw15.2]

theorem permittedFrom_of_short :
    ∀ (ts q : List ℚ), q.length + ts.length ≤ max_requests →
    permittedFrom q ts = true := by
  intro ts
  induction ts with
  | nil => intro q _; rfl
  | cons t ts ih =>
    intro q hlen
    simp only [permittedFrom, Bool.and_eq_true]
    simp only [List.length_cons] at hlen
    constructor
    · have hq : q.length < max_requests := by omega
      simp [can_make_request, hq]
    · refine ih (enqueue t q) ?_
      have h1 : (enqueue t q).length ≤ q.length + 1 := by
        have h2 := (enqueue_suffix t q).length_le
        simpa using h2
      omega

/-- Claim C1, counterexample to the unconditional sliding-window guarantee:
starting from an empty queue, fifteen requests at time 0 followed by sixteen
requests at time 5 are all admitted by `can_make_request` (at time 5 the
oldest entry is exactly `time_window` old, so the guard grants the request
while `_remove_expired_requests` retains the entry, which uses a strict
comparison), yet the sixteen requests at time 5 all lie inside the single
5-second window `[5, 10)` — more than `max_requests`. -/
theorem C1_window_overrun_counterexample :
    List.Pairwise (· ≤ ·) (List.replicate 15 (0 : ℚ) ++ List.replicate 16 5) ∧
    permittedFrom [] (List.replicate 15 (0 : ℚ) ++ List.replicate 16 5) = true ∧
    max_requests < count_in_window 5 (List.replicate 15 (0 : ℚ) ++ List.replicate 16 5) := by
  refine ⟨by with_unfolding_all decide, by with_unfolding_all decide, by with_unfolding_all decide⟩

/-- Claim C1 (amended). For the rate limiter of `api_request_manager.py`:
(1) every sequence of at most 15 issuances from an empty queue is admitted by
`can_make_request` before each issuance; (2) once 15 timestamps are tracked
and all are strictly within the window, `can_make_request` returns false;
(3) with a full queue, `can_make_request` succeeds — ending the blocking loop
of `wait_until_request_possible`, which loops while it returns false — exactly
when the oldest tracked timestamp is at least `time_window` seconds old;
(4)(5) consequently, for every chronological admitted trace in which no two
issuances are exactly `time_window` seconds apart (the amendment: at an exact
boundary the code grants a request but retains the boundary entry, allowing
overshoot), any 16 consecutive issuances span at least `time_window` seconds,
and every sliding window `[lo, lo + time_window)` contains at most
`max_requests` issuances. -/
theorem C1_rate_limiting :
    (∀ ts : List ℚ, ts.length ≤ max_requests → permittedFrom [] ts = true) ∧
    (∀ (now : ℚ) (q : List ℚ), max_requests ≤ q.length →
      (∀ x ∈ q, now - x < time_window) → can_make_request now q = false) ∧
    (∀ (now x : ℚ) (rest : List ℚ), max_requests ≤ (x :: rest).length →
      (can_make_request now (x :: rest) = true ↔ time_window ≤ now - x)) ∧
    (∀ ts : List ℚ, List.Pairwise (· ≤ ·) ts →
      List.Pairwise (fun a b => b - a ≠ time_window) ts →
      permittedFrom [] ts = true →
      ∀ (i : ℕ) (h : i + 15 < ts.length),
        ts.get ⟨i, by omega⟩ + time_window ≤ ts.get ⟨i + 15, h⟩) ∧
    (∀ ts : List ℚ, List.Pairwise (· ≤ ·) ts →
      List.Pairwise (fun a b => b - a ≠ time_window) ts →
      permittedFrom [] ts = true →
      ∀ lo : ℚ, count_in_window lo ts ≤ max_requests) := by
  refine ⟨?_, ?_, ?_, rate_limit_spacing, rate_limit_window⟩
  · intro ts hlen
    exact permittedFrom_of_short ts [] (by simpa using hlen)
  · intro now q hlen hall
    cases q with
    | nil => simp [max_requests] at hlen
    | cons x rest =>
      have hx : now - x < time_window := hall x (List.mem_cons_self x rest)
      have hnl : ¬((x :: rest).length < max_requests) := by omega
      simp only [can_make_request, if_neg hnl]
      show (if now - x < time_window then false else true) = false
      rw [if_pos hx]
  · intro now x rest hlen
    have hnl : ¬((x :: rest).length < max_requests) := by omega
    constructor
    · intro hcan
      simp only [can_make_request, if_neg hnl] at hcan
      split at hcan
      · exact absurd hcan (by simp)
      · next hc => linarith [not_lt.1 hc]
    · intro hge
      have hc : ¬(now - x < time_window) := not_lt.2 hge
      simp only [can_make_request, if_neg hnl]
      show (if now - x < time_window then false else true) = true
      rw [if_neg hc]

/-- Witness for claim C1: each conjunct of `C1_rate_limiting` applied to a
concrete instance. -/
theorem C1_rate_limiting_witness :
    permittedFrom [] [(0 : ℚ), 1] = true ∧
    can_make_request 6 (List.replicate 15 (2 : ℚ)) = false ∧
    (can_make_request 10 ((2 : ℚ) :: List.replicate 14 3) = true ↔
      time_window ≤ (10 : ℚ) - 2) ∧
    (List.replicate 15 (0 : ℚ) ++ [6]).get ⟨0, by with_unfolding_all decide⟩ + time_window ≤
      (List.replicate 15 (0 : ℚ) ++ [6]).get ⟨0 + 15, by with_unfolding_all decide⟩ ∧
    count_in_window 0 (List.replicate 15 (0 : ℚ) ++ [6]) ≤ max_requests :=
  ⟨C1_rate_limiting.1 _ (by with_unfolding_all decide),
   C1_rate_limiting.2.1 _ _ (by with_unfolding_all decide) (by with_unfolding_all decide),
   C1_rate_limiting.2.2.1 _ _ _ (by with_unfolding_all decide),
   C1_rate_limiting.2.2.2.1 _ (by with_unfolding_all decide) (by with_unfolding_all decide) (by with_unfolding_all decide) 0 (by with_unfolding_all decide),
   C1_rate_limiting.2.2.2.2 _ (by with_unfolding_all decide) (by with_unfolding_all decide) (by with_unfolding_all decide) 0⟩

/-! ## Node model (`node.py`) -/

/-- Source: the `NodeType` enum in `node.py`. -/
inductive NodeType where
  | REFERENCE
  | SEED
deriving DecidableEq

/-- Source: class `Node` in `node.py`. Strings are modelled as `List Char`.
A parent entry is represented by the pair of fields that determine Python
`set` membership of a `Node`: `__hash__` feeds `(self.record, self.title)`
to `hash` and `__eq__` compares `record`, so absent accidental collisions
between distinct hash inputs, two parent objects coincide in a `set` exactly
when both `record` and `title` agree — hence `parents` is a `Finset` of such
pairs. -/
structure Node where
  record : List Char
  title : List Char
  parents : Finset (List Char × List Char)
  node_type : NodeType
deriving DecidableEq

/-- Source: `Node.__eq__`: two nodes are equal exactly when their `record`
fields are equal (the `isinstance` branch). -/
def node_eq (a b : Node) : Bool := a.record == b.record

/-- Source: `Node.__hash__`: the value handed to Python's `hash` builtin is
the tuple `(self.record, self.title)`. -/
def node_hash_input (n : Node) : List Char × List Char := (n.record, n.title)

/-- Source: `Node.add_parent`: `self.parents.add(parent_node)`. -/
def add_parent (n : Node) (p : Node) : Node :=
  { n with parents := insert (node_hash_input p) n.parents }

/-- Claim C2 (code bug): `__eq__` compares `record` only, so the two nodes
below — same record, different titles — are equal; but `__hash__` hashes the
tuple `(record, title)`, and the two tuples differ, so the hashes agree only
on an accidental collision. Equality is determined solely by the record, the
hash input is not, contradicting the claim that both are. -/
theorem C2_hash_includes_title :
    node_eq ⟨"r".data, "a".data, ∅, NodeType.REFERENCE⟩
        ⟨"r".data, "b".data, ∅, NodeType.REFERENCE⟩ = true ∧
    node_hash_input ⟨"r".data, "a".data, ∅, NodeType.REFERENCE⟩ ≠
      node_hash_input ⟨"r".data, "b".data, ∅, NodeType.REFERENCE⟩ := by
  refine ⟨by decide, by decide⟩

/-! ## Deduplication (`main.py`, `remove_duplicates`) -/

/-- Source: `remove_duplicates` in `main.py`, the duplicate branch:
`next((n for n in unique_nodes if n.record == node.record), None)` locates the
first kept node with the same record and its parent set is replaced by the
union with the duplicate's parents; if no node matches (`None`), nothing
happens. -/
def update_first_matching (nodes : List Node) (nd : Node) : List Node :=
  match nodes with
  | [] => []
  | u :: us =>
    if u.record == nd.record then
      { u with parents := u.parents ∪ nd.parents } :: us
    else
      u :: update_first_matching us nd

/-- Source: the loop of `remove_duplicates` in `main.py`; `unique` is
`unique_nodes`, `record_set` is `record_set` (insertion modelled by cons). -/
def remove_duplicates_go (unique : List Node) (record_set : List (List Char)) :
    List Node → List Node
  | [] => unique
  | n :: ns =>
    if n.record ∈ record_set then
      remove_duplicates_go (update_first_matching unique n) record_set ns
    else
      remove_duplicates_go (unique ++ [n]) (n.record :: record_set) ns

/-- Source: `remove_duplicates` in `main.py`. -/
def remove_duplicates (all_nodes : List Node) : List Node :=
  remove_duplicates_go [] [] all_nodes

/-- Modelled from the spec wording of claim C4, for comparison with
`remove_duplicates`: for a record `r`, the kept node is the first input node
carrying `r` (its title and type), with parents the union of the parent sets
of all input nodes carrying `r`; records not present yield nothing. -/
def merged_for_record (l : List Node) (r : List Char) : List Node :=
  match l.filter (fun n => n.record == r) with
  | [] => []
  | n :: _ =>
    [{ record := n.record, title := n.title,
       parents := (l.filter (fun n2 => n2.record == r)).foldl
         (fun acc n2 => acc ∪ n2.parents) ∅,
       node_type := n.node_type }]

theorem merged_cons_of_filter (l : List Node) (r : List Char) (u0 : Node) (us0 : List Node)
    (hfil : l.filter (fun n => n.record == r) = u0 :: us0) :
    merged_for_record l r =
      [{ record := u0.record, title := u0.title,
         parents := (u0 :: us0).foldl (fun acc n2 => acc ∪ n2.parents) ∅,
         node_type := u0.node_type }] := by
  simp only [merged_for_record, hfil]

theorem merged_nil_of_filter (l : List Node) (r : List Char)
    (hfil : l.filter (fun n => n.record == r) = []) :
    merged_for_record l r = [] := by
  simp only [merged_for_record, hfil]

theorem update_first_matching_filter_ne (nodes : List Node) (nd : Node) (r : List Char)
    (hne : nd.record ≠ r) :
    (update_first_matching nodes nd).filter (fun n => n.record == r) =
      nodes.filter (fun n => n.record == r) := by
  induction nodes with
  | nil => rfl
  | cons u us ih =>
    simp only [update_first_matching]
    by_cases hu : (u.record == nd.record) = true
    · rw [if_pos hu]
      have h1 : u.record = nd.record := by rwa [beq_iff_eq] at hu
      have hb : (u.record == r) = false := by
        rw [beq_eq_false_iff_ne, h1]
        exact hne
      simp [List.filter_cons, hb]
    · rw [if_neg hu]
      simp only [List.filter_cons]
      rw [ih]

theorem update_first_matching_filter_eq (nodes : List Node) (nd : Node) (u0 : Node)
    (hfil : nodes.filter (fun n => n.record == nd.record) = [u0]) :
    (update_first_matching nodes nd).filter (fun n => n.record == nd.record) =
      [{ u0 with parents := u0.parents ∪ nd.parents }] := by
  induction nodes with
  | nil => simp at hfil
  | cons u us ih =>
    simp only [update_first_matching]
    by_cases hu : (u.record == nd.record) = true
    · rw [if_pos hu]
      simp only [List.filter_cons, hu, if_true] at hfil
      obtain ⟨h9, h10⟩ := List.cons_eq_cons.1 hfil
      subst h9
      simp [List.filter_cons, hu, h10]
    · rw [if_neg hu]
      have hb : (u.record == nd.record) = false := by simpa using hu
      simp only [List.filter_cons, hb] at hfil
      simp only [List.filter_cons, hb]
      simp only [Bool.false_eq_true, if_false] at hfil ⊢
      exact ih hfil

theorem merged_for_record_append_ne (l : List Node) (n : Node) (r : List Char)
    (hne : n.record ≠ r) :
    merged_for_record (l ++ [n]) r = merged_for_record l r := by
  have hb : (n.record == r) = false := by
    rw [beq_eq_false_iff_ne]
    exact hne
  have hf : (l ++ [n]).filter (fun n2 => n2.record == r) =
      l.filter (fun n2 => n2.record == r) := by
    rw [List.filter_append]
    simp [List.filter_cons, hb]
  simp only [merged_for_record, hf]

theorem remove_duplicates_go_spec :
    ∀ (rest p unique : List Node) (record_set : List (List Char)),
    (∀ r, unique.filter (fun n => n.record == r) = merged_for_record p r) →
    (∀ r, r ∈ record_set ↔ ∃ n ∈ p, n.record = r) →
    ∀ r, (remove_duplicates_go unique record_set rest).filter (fun n => n.record == r) =
      merged_for_record (p ++ rest) r := by
  intro rest
  induction rest with
  | nil =>
    intro p unique record_set h1 _ r
    simpa using h1 r
  | cons n ns ih =>
    intro p unique record_set h1 h2 r
    simp only [remove_duplicates_go]
    rw [List.append_cons p n ns]
    by_cases hmem : n.record ∈ record_set
    · rw [if_pos hmem]
      obtain ⟨m, hm, hmr⟩ := (h2 n.record).1 hmem
      have hpne : p.filter (fun n2 => n2.record == n.record) ≠ [] := by
        intro hemp
        have hmf : m ∈ p.filter (fun n2 => n2.record == n.record) := by
          rw [List.mem_filter]
          exact ⟨hm, by rw [beq_iff_eq]; exact hmr⟩
        rw [hemp] at hmf
        exact absurd hmf (List.not_mem_nil m)
      obtain ⟨u0, us0, hfil⟩ : ∃ u0 us0,
          p.filter (fun n2 => n2.record == n.record) = u0 :: us0 := by
        cases hpf : p.filter (fun n2 => n2.record == n.record) with
        | nil => exact absurd hpf hpne
        | cons a b => exact ⟨a, b, rfl⟩
      have hstep : ∀ r2, (update_first_matching unique n).filter (fun n2 => n2.record == r2) =
          merged_for_record (p ++ [n]) r2 := by
        intro r2
        by_cases hr2 : n.record = r2
        · subst hr2
          have hmerged := merged_cons_of_filter p n.record u0 us0 hfil
          have hsingle : unique.filter (fun n2 => n2.record == n.record) =
              [{ record := u0.record, title := u0.title,
                 parents := (u0 :: us0).foldl (fun acc n2 => acc ∪ n2.parents) ∅,
                 node_type := u0.node_type }] := by
            rw [h1 n.record, hmerged]
          have hupd := update_first_matching_filter_eq unique n _ hsingle
          rw [hupd]
          -- right-hand side: the appended duplicate contributes its parents
          have hfil2 : (p ++ [n]).filter (fun n2 => n2.record == n.record) =
              u0 :: (us0 ++ [n]) := by
            rw [List.filter_append, hfil]
            simp [List.filter_cons]
          rw [merged_cons_of_filter (p ++ [n]) n.record u0 (us0 ++ [n]) hfil2]
          simp [List.foldl_append]
        · rw [update_first_matching_filter_ne unique n r2 hr2, h1 r2,
            merged_for_record_append_ne p n r2 hr2]
      have h2' : ∀ r2, r2 ∈ record_set ↔ ∃ n2 ∈ p ++ [n], n2.record = r2 := by
        intro r2
        rw [h2 r2]
        constructor
        · rintro ⟨n2, hn2, hr2⟩
          exact ⟨n2, List.mem_append_left _ hn2, hr2⟩
        · rintro ⟨n2, hn2, hr2⟩
          rcases List.mem_append.1 hn2 with h | h
          · exact ⟨n2, h, hr2⟩
          · rw [List.mem_singleton.1 h] at hr2
            rw [← hr2]
            exact ⟨m, hm, hmr⟩
      exact ih (p ++ [n]) (update_first_matching unique n) record_set hstep h2' r
    · rw [if_neg hmem]
      have hpnil : p.filter (fun n2 => n2.record == n.record) = [] := by
        rw [List.filter_eq_nil_iff]
        intro a ha
        rw [beq_iff_eq]
        intro har
        exact hmem ((h2 n.record).2 ⟨a, ha, har⟩)
      have hstep : ∀ r2, (unique ++ [n]).filter (fun n2 => n2.record == r2) =
          merged_for_record (p ++ [n]) r2 := by
        intro r2
        rw [List.filter_append]
        by_cases hr2 : n.record = r2
        · subst hr2
          rw [h1 n.record, merged_nil_of_filter p n.record hpnil]
          have hfil2 : (p ++ [n]).filter (fun n2 => n2.record == n.record) = [n] := by
            rw [List.filter_append, hpnil]
            simp [List.filter_cons]
          rw [merged_cons_of_filter (p ++ [n]) n.record n [] hfil2]
          simp [List.filter_cons]
        · have hb : (n.record == r2) = false := by
            rw [beq_eq_false_iff_ne]
            exact hr2
          rw [h1 r2, merged_for_record_append_ne p n r2 hr2]
          simp [List.filter_cons, hb]
      have h2' : ∀ r2, r2 ∈ n.record :: record_set ↔ ∃ n2 ∈ p ++ [n], n2.record = r2 := by
        intro r2
        rw [List.mem_cons, h2 r2]
        constructor
        · rintro (h | ⟨n2, hn2, hr2⟩)
          · exact ⟨n, List.mem_append_right _ (List.mem_singleton_self n), h.symm⟩
          · exact ⟨n2, List.mem_append_left _ hn2, hr2⟩
        · rintro ⟨n2, hn2, hr2⟩
          rcases List.mem_append.1 hn2 with h | h
          · exact Or.inr ⟨n2, h, hr2⟩
          · rw [List.mem_singleton.1 h] at hr2
            exact Or.inl hr2.symm
      exact ih (p ++ [n]) (unique ++ [n]) (n.record :: record_set) hstep h2' r

/-- Claim C4: `remove_duplicates` keeps, for every record value `r`, exactly
one node when some input node carries `r` and none otherwise; the kept node is
the first input occurrence (supplying title and node type) and its parent set
is the union of the parent sets of all input nodes carrying `r`
(`merged_for_record` is the spec-side description of that node). -/
theorem C4_remove_duplicates_merge (l : List Node) (r : List Char) :
    (remove_duplicates l).filter (fun n => n.record == r) = merged_for_record l r := by
  have h := remove_duplicates_go_spec l [] [] []
    (fun r2 => by simp [merged_for_record]) (fun r2 => by simp) r
  simpa [remove_duplicates] using h

/-! ## Response-cache key derivation (`make_api_request`) -/

/-- Source: `url.replace('/', '_')` in `APIRequestManager.make_api_request`
(used both when reading and when writing `cache/{...}.json`): every `/`
character of the URL is replaced by `_`. -/
def cache_key (url : List Char) : List Char :=
  url.map (fun c => if c = '/' then '_' else c)

/-- Claim C5 counterexample: the two distinct URLs `a/b` and `a_b` are mapped
to the same cache key, so the key derivation of `make_api_request` is not
injective on arbitrary URLs. -/
theorem C5_cache_key_collision :
    cache_key "a/b".data = cache_key "a_b".data ∧ "a/b".data ≠ "a_b".data := by
  refine ⟨by decide, by decide⟩

/-- Claim C5 (amended): the key derivation is injective on URLs containing no
underscore (which covers the INSPIRE API URLs the program builds); a collision
between distinct URLs requires one of them to contain `_` where the other has
`/`. -/
theorem C5_cache_key_injective_no_underscore :
    ∀ u v : List Char, '_' ∉ u → '_' ∉ v → cache_key u = cache_key v → u = v := by
  intro u
  induction u with
  | nil =>
    intro v _ _ h
    cases v with
    | nil => rfl
    | cons b bs => simp [cache_key] at h
  | cons a as ih =>
    intro v hu hv h
    cases v with
    | nil => simp [cache_key] at h
    | cons b bs =>
      simp only [cache_key, List.map_cons, List.cons.injEq] at h
      obtain ⟨h1, h2⟩ := h
      have ha : a ≠ '_' := fun he => hu (he ▸ List.mem_cons_self a as)
      have hb : b ≠ '_' := fun he => hv (he ▸ List.mem_cons_self b bs)
      have hab : a = b := by
        by_cases ha2 : a = '/'
        · by_cases hb2 : b = '/'
          · rw [ha2, hb2]
          · rw [if_pos ha2, if_neg hb2] at h1
            exact absurd h1.symm hb
        · by_cases hb2 : b = '/'
          · rw [if_neg ha2, if_pos hb2] at h1
            exact absurd h1 ha
          · rw [if_neg ha2, if_neg hb2] at h1
            exact h1
      have htail : as = bs :=
        ih bs (fun hm => hu (List.mem_cons_of_mem a hm))
          (fun hm => hv (List.mem_cons_of_mem b hm)) h2
      rw [hab, htail]

/-- Witness for claim C5: the injectivity theorem applied at a concrete
underscore-free pair of URLs. -/
theorem C5_cache_key_injective_witness : ("a/b".data : List Char) = "a/b".data :=
  C5_cache_key_injective_no_underscore "a/b".data "a/b".data
    (by decide) (by decide) (by decide)

/-! ## JSON payloads, manager state and `make_api_request`
(`api_request_manager.py`) -/

/-- JSON values as produced by `response.json()` / `json.load`; object keys
and strings are `List Char`, numbers are rationals. -/
inductive Json where
  | null
  | bool (b : Bool)
  | num (q : ℚ)
  | str (s : List Char)
  | arr (elems : List Json)
  | obj (fields : List (List Char × Json))

/-- Lookup in the response cache (one file per key on disk; the most recent
write shadows older entries at the front of the association list). -/
def assoc_lookup (k : List Char) : List (List Char × Json) → Option Json
  | [] => none
  | (k2, v) :: rest => if k2 = k then some v else assoc_lookup k rest

/-- The mutable state of an `APIRequestManager` run together with the on-disk
caches: the timestamp queue, the response cache (`cache/<key>.json`, keyed by
`cache_key`) and the title cache (`cache/title_cache.txt`, a list of raw
lines in file order). -/
structure ManagerState where
  queue : List ℚ
  resp_cache : List (List Char × Json)
  title_log : List (List Char)

/-- Source: `APIRequestManager.make_api_request(url, cache)`. The network is
the abstract function `net` (`none` models `requests.exceptions.Timeout` and
`ConnectionError`); `now` is the clock reading at issuance (the blocking wait
only delays the clock, which is exogenous here). Returns the result, the
post-call state, and whether an HTTP request was attempted. The code reads
the cache and returns before consulting the rate limiter on a hit; on the
network path it enqueues the issuance time before `requests.get`; on failure
it returns `None` without writing the cache; on success with `cache=True` it
writes the payload under the URL's key before returning it. -/
def make_api_request (net : List Char → Option Json) (now : ℚ) (url : List Char)
    (cache : Bool) (st : ManagerState) : Option Json × ManagerState × Bool :=
  if cache then
    match assoc_lookup (cache_key url) st.resp_cache with
    | some payload => (some payload, st, false)
    | none => network_path
  else network_path
where
  network_path : Option Json × ManagerState × Bool :=
    match net url with
    | none => (none, { st with queue := enqueue now st.queue }, true)
    | some payload =>
      if cache then
        (some payload,
         { st with queue := enqueue now st.queue,
                   resp_cache := (cache_key url, payload) :: st.resp_cache },
         true)
      else
        (some payload, { st with queue := enqueue now st.queue }, true)

/-- Claim C3: with caching enabled, a URL whose response is stored in the
response cache is answered from the cache: the stored payload is returned,
no network call is attempted, and the whole state — in particular the rate
limiter's queue — is unchanged. Moreover a successful cached fetch writes the
payload, and the immediately following cached fetch of the same URL returns
that very payload with no network attempt and no state change (round-trip),
for any later network behaviour and clock. -/
theorem C3_cache_round_trip :
    (∀ (net : List Char → Option Json) (now : ℚ) (url : List Char)
      (st : ManagerState) (p : Json),
      assoc_lookup (cache_key url) st.resp_cache = some p →
      make_api_request net now url true st = (some p, st, false)) ∧
    (∀ (net net2 : List Char → Option Json) (now now2 : ℚ) (url : List Char)
      (st : ManagerState) (p : Json),
      assoc_lookup (cache_key url) st.resp_cache = none →
      net url = some p →
      make_api_request net now url true st =
        (some p,
         { st with queue := enqueue now st.queue,
                   resp_cache := (cache_key url, p) :: st.resp_cache }, true) ∧
      make_api_request net2 now2 url true
          { st with queue := enqueue now st.queue,
                    resp_cache := (cache_key url, p) :: st.resp_cache } =
        (some p,
         { st with queue := enqueue now st.queue,
                   resp_cache := (cache_key url, p) :: st.resp_cache }, false)) := by
  constructor
  · intro net now url st p hhit
    simp [make_api_request, hhit]
  · intro net net2 now now2 url st p hmiss hnet
    constructor
    · simp [make_api_request, make_api_request.network_path, hmiss, hnet]
    · have hhit : assoc_lookup (cache_key url)
          ((cache_key url, p) :: st.resp_cache) = some p := by
        simp [assoc_lookup]
      simp [make_api_request, hhit]

/-- Witness for claim C3: both conjuncts applied at a concrete state. -/
theorem C3_cache_round_trip_witness :
    make_api_request (fun _ => none) 0 "u".data true
        ⟨[], [(cache_key "u".data, Json.null)], []⟩ =
      (some Json.null, ⟨[], [(cache_key "u".data, Json.null)], []⟩, false) ∧
    make_api_request (fun _ => some (Json.num 1)) 2 "v".data true ⟨[], [], []⟩ =
      (some (Json.num 1),
       { queue := enqueue 2 [], resp_cache := [(cache_key "v".data, Json.num 1)],
         title_log := [] }, true) :=
  ⟨C3_cache_round_trip.1 (fun _ => none) 0 "u".data
      ⟨[], [(cache_key "u".data, Json.null)], []⟩ Json.null rfl,
   (C3_cache_round_trip.2 (fun _ => some (Json.num 1)) (fun _ => some (Json.num 1))
      2 2 "v".data ⟨[], [], []⟩ (Json.num 1) rfl rfl).1⟩

/-- Claim C9: on every call of `make_api_request` that reaches the network
path (cache disabled or cache miss), the issuance time is enqueued into the
rate limiter's queue and the HTTP request is attempted, and the timestamp
stays enqueued whatever the network outcome — `net` is arbitrary here and
covers timeouts and connection errors (`net url = none`) as well as success,
so failed requests consume a rate slot exactly like successful ones. -/
theorem C9_failed_requests_consume_slot :
    ∀ (net : List Char → Option Json) (now : ℚ) (url : List Char)
      (cache : Bool) (st : ManagerState),
      (cache = false ∨ assoc_lookup (cache_key url) st.resp_cache = none) →
      (make_api_request net now url cache st).2.1.queue = enqueue now st.queue ∧
      (make_api_request net now url cache st).2.2 = true := by
  intro net now url cache st hpath
  rcases hpath with rfl | hmiss
  · cases hnet : net url with
    | none => simp [make_api_request, make_api_request.network_path, hnet]
    | some p => simp [make_api_request, make_api_request.network_path, hnet]
  · cases cache with
    | false =>
      cases hnet : net url with
      | none => simp [make_api_request, make_api_request.network_path, hnet]
      | some p => simp [make_api_request, make_api_request.network_path, hnet]
    | true =>
      cases hnet : net url with
      | none => simp [make_api_request, make_api_request.network_path, hmiss, hnet]
      | some p => simp [make_api_request, make_api_request.network_path, hmiss, hnet]

/-- Witness for claim C9: a timed-out request (network returns `none`) still
leaves its timestamp in the queue. -/
theorem C9_failed_requests_consume_slot_witness :
    (make_api_request (fun _ => none) 3 "u".data true ⟨[], [], []⟩).2.1.queue =
      enqueue 3 [] ∧
    (make_api_request (fun _ => none) 3 "u".data true ⟨[], [], []⟩).2.2 = true :=
  C9_failed_requests_consume_slot (fun _ => none) 3 "u".data true ⟨[], [], []⟩
    (Or.inr rfl)

/-- Claim C10: a cache-enabled call that misses the cache and then fails on
the network returns `None` with the response cache unchanged (only the queue
has grown), so the failure is never cached; a later call for the same URL
misses again and attempts the network afresh. -/
theorem C10_no_cache_write_on_failure :
    ∀ (net net2 : List Char → Option Json) (now now2 : ℚ) (url : List Char)
      (st : ManagerState),
      assoc_lookup (cache_key url) st.resp_cache = none →
      net url = none →
      make_api_request net now url true st =
        (none, { st with queue := enqueue now st.queue }, true) ∧
      (make_api_request net2 now2 url true
        { st with queue := enqueue now st.queue }).2.2 = true := by
  intro net net2 now now2 url st hmiss hnet
  constructor
  · simp [make_api_request, make_api_request.network_path, hmiss, hnet]
  · cases hnet2 : net2 url with
    | none => simp [make_api_request, make_api_request.network_path, hmiss, hnet2]
    | some p => simp [make_api_request, make_api_request.network_path, hmiss, hnet2]

/-- Witness for claim C10: a concrete failing fetch caches nothing and the
retry attempts the network. -/
theorem C10_no_cache_write_on_failure_witness :
    make_api_request (fun _ => none) 1 "u".data true ⟨[], [], []⟩ =
      (none, { queue := enqueue 1 [], resp_cache := [], title_log := [] }, true) ∧
    (make_api_request (fun _ => some Json.null) 2 "u".data true
      { queue := enqueue 1 [], resp_cache := [], title_log := [] }).2.2 = true := by
  have h := C10_no_cache_write_on_failure (fun _ => none) (fun _ => some Json.null)
    1 2 "u".data ⟨[], [], []⟩ rfl rfl
  exact h

/-! ## Title resolution (`find_title_from_inspire_record`) -/

/-- Python exceptions relevant to `find_title_from_inspire_record`; only
`KeyError` is caught by its `except` clause. -/
inductive PyErr where
  | keyError
  | indexError
  | typeError
deriving DecidableEq

/-- The whitespace characters stripped by Python's `str.strip()`. -/
def isPySpace (c : Char) : Bool :=
  c = ' ' || c = '\t' || c = '\n' || c = '\r' || c = '\x0b' || c = '\x0c'

/-- Python `str.strip()`: remove leading and trailing whitespace. -/
def py_strip (l : List Char) : List Char :=
  ((l.dropWhile isPySpace).reverse.dropWhile isPySpace).reverse

/-- Python `str.split(c)` for a single-character separator. -/
def py_split (c : Char) : List Char → List (List Char)
  | [] => [[]]
  | x :: xs =>
    if x = c then [] :: py_split c xs
    else
      match py_split c xs with
      | [] => [[x]]
      | s :: rest => (x :: s) :: rest

/-- Source: the cache-scanning loop of `find_title_from_inspire_record`:
`for line in f: if line.startswith(record_num): return
line.split(',')[1].strip()`. The subscript `[1]` raises `IndexError` when the
matched line has no comma. -/
def title_cache_lookup (record_num : List Char) :
    List (List Char) → Except PyErr (Option (List Char))
  | [] => .ok none
  | line :: rest =>
    if record_num.isPrefixOf line then
      match (py_split ',' line).get? 1 with
      | some fld => .ok (some (py_strip fld))
      | none => .error .indexError
    else title_cache_lookup record_num rest

/-- Python `dict` subscripting with a string key: objects look the key up
(`KeyError` when absent); lists, strings and scalars raise `TypeError`. -/
def getitem_str (j : Json) (k : List Char) : Except PyErr Json :=
  match j with
  | .obj fs =>
    match assoc_lookup k fs with
    | some v => .ok v
    | none => .error .keyError
  | _ => .error .typeError

/-- Python subscripting with a natural-number index: lists raise `IndexError`
out of range; dicts (with only string keys in this model) raise `KeyError`;
strings index their characters; scalars raise `TypeError`. -/
def getitem_idx (j : Json) (i : ℕ) : Except PyErr Json :=
  match j with
  | .arr xs =>
    match xs.get? i with
    | some v => .ok v
    | none => .error .indexError
  | .obj _ => .error .keyError
  | .str s =>
    match s.get? i with
    | some c => .ok (.str [c])
    | none => .error .indexError
  | _ => .error .typeError

/-- Source: `response['hits']['hits'][0]['metadata']['titles'][0]['title']`. -/
def extract_title (r : Json) : Except PyErr Json := do
  let h1 ← getitem_str r "hits".data
  let h2 ← getitem_str h1 "hits".data
  let h3 ← getitem_idx h2 0
  let m ← getitem_str h3 "metadata".data
  let t1 ← getitem_str m "titles".data
  let t2 ← getitem_idx t1 0
  getitem_str t2 "title".data

/-- Rendering of the title by the f-string `f"{record_num},{title}"` (Python
`str`). All titles appearing in the claims are strings and render verbatim;
the rendering of a non-string value in a title field is schematic, and no
theorem depends on it. -/
def py_format : Json → List Char
  | .str s => s
  | .null => "None".data
  | .bool true => "True".data
  | .bool false => "False".data
  | .num q => (toString q).data
  | .arr _ => "<non-str>".data
  | .obj _ => "<non-str>".data

/-- Source: the query URL built by `find_title_from_inspire_record`. -/
def title_query_url (record_num : List Char) : List Char :=
  "https://inspirehep.net/api/literature?q=recid:".data ++ record_num ++
    "&fields=titles".data

/-- The cache line `f"{record_num},{title}\n"` appended on a miss. -/
def title_line (record_num title : List Char) : List Char :=
  record_num ++ [','] ++ title ++ ['\n']

/-- Source: `APIRequestManager.find_title_from_inspire_record(record_num,
cache)`. With caching, the title cache is scanned first (first `startswith`
match wins); on a miss the query URL is fetched through `make_api_request`
with `cache=False`; a failed fetch returns the sentinel `'No title'` without
touching the title cache; the title is extracted along the fixed JSON path
with only `KeyError` mapped to the sentinel (other exceptions propagate);
finally, with caching, one line is appended to the title cache. -/
def find_title (net : List Char → Option Json) (now : ℚ) (record_num : List Char)
    (cache : Bool) (st : ManagerState) : Except PyErr (Json × ManagerState) :=
  let miss : Except PyErr (Json × ManagerState) :=
    match make_api_request net now (title_query_url record_num) false st with
    | (none, st1, _) => .ok (.str "No title".data, st1)
    | (some r, st1, _) =>
      match extract_title r with
      | .error .keyError =>
        if cache then
          .ok (.str "No title".data,
            { st1 with title_log := st1.title_log ++
                [title_line record_num "No title".data] })
        else .ok (.str "No title".data, st1)
      | .error e => .error e
      | .ok v =>
        if cache then
          .ok (v, { st1 with title_log := st1.title_log ++
              [title_line record_num (py_format v)] })
        else .ok (v, st1)
  if cache then
    match title_cache_lookup record_num st.title_log with
    | .error e => .error e
    | .ok (some t) => .ok (.str t, st)
    | .ok none => miss
  else miss

theorem py_split_no_sep (c : Char) :
    ∀ a : List Char, c ∉ a → py_split c a = [a] := by
  intro a
  induction a with
  | nil => intro _; rfl
  | cons x xs ih =>
    intro h
    have hx : ¬(x = c) := by
      intro he
      exact h (he ▸ List.mem_cons_self x xs)
    have hxs : c ∉ xs := fun hm => h (List.mem_cons_of_mem x hm)
    simp only [py_split, if_neg hx, ih hxs]

theorem py_split_append (c : Char) :
    ∀ (a b : List Char), c ∉ a → py_split c (a ++ c :: b) = a :: py_split c b := by
  intro a
  induction a with
  | nil =>
    intro b _
    simp [py_split]
  | cons x xs ih =>
    intro b h
    have hx : ¬(x = c) := by
      intro he
      exact h (he ▸ List.mem_cons_self x xs)
    have hxs : c ∉ xs := fun hm => h (List.mem_cons_of_mem x hm)
    simp only [List.cons_append, py_split, if_neg hx, List.append_eq, ih b hxs]

theorem isPrefixOf_append_self :
    ∀ l r : List Char, l.isPrefixOf (l ++ r) = true := by
  intro l
  induction l with
  | nil => intro r; simp
  | cons x xs ih =>
    intro r
    simp only [List.cons_append, List.isPrefixOf, List.append_eq]
    rw [ih r]
    simp

theorem isPrefixOf_stops (c : Char) :
    ∀ (rec id rest : List Char), c ∉ rec →
    rec.isPrefixOf (id ++ c :: rest) = rec.isPrefixOf id := by
  intro rec
  induction rec with
  | nil => intro id rest _; cases id <;> rfl
  | cons r rs ih =>
    intro id rest h
    have hr : ¬(r = c) := by
      intro he
      exact h (he ▸ List.mem_cons_self r rs)
    have hrs : c ∉ rs := fun hm => h (List.mem_cons_of_mem r hm)
    cases id with
    | nil =>
      simp only [List.nil_append, List.isPrefixOf]
      have hb : (r == c) = false := by
        rw [beq_eq_false_iff_ne]
        exact hr
      simp [hb]
    | cons i is =>
      simp only [List.cons_append, List.isPrefixOf, List.append_eq]
      rw [ih is rest hrs]

theorem dropWhile_eq_self_of_strip (t : List Char) (h : py_strip t = t) :
    t.dropWhile isPySpace = t := by
  have h1 : (py_strip t).length ≤ (t.dropWhile isPySpace).length := by
    simp only [py_strip, List.length_reverse]
    have := (List.dropWhile_suffix (l := (t.dropWhile isPySpace).reverse)
      isPySpace).length_le
    simpa using this
  rw [h] at h1
  exact (List.dropWhile_suffix isPySpace).eq_of_length_le h1

theorem reverse_dropWhile_eq_self_of_strip (t : List Char) (h : py_strip t = t) :
    t.reverse.dropWhile isPySpace = t.reverse := by
  have h0 := dropWhile_eq_self_of_strip t h
  have h1 : py_strip t = (t.reverse.dropWhile isPySpace).reverse := by
    simp only [py_strip, h0]
  rw [h] at h1
  have h2 : t.reverse = t.reverse.dropWhile isPySpace := by
    have := congrArg List.reverse h1
    simpa using this
  exact h2.symm

theorem py_strip_append_newline (t : List Char) (h : py_strip t = t) :
    py_strip (t ++ ['\n']) = t := by
  cases t with
  | nil => decide
  | cons x xs =>
    have h0 := dropWhile_eq_self_of_strip (x :: xs) h
    have hx : isPySpace x = false := by
      cases hsp : isPySpace x with
      | false => rfl
      | true =>
        rw [List.dropWhile_cons_of_pos hsp] at h0
        have := congrArg List.length h0
        have h2 := (List.dropWhile_suffix (l := xs) isPySpace).length_le
        simp at this
        omega
    have h2 := reverse_dropWhile_eq_self_of_strip (x :: xs) h
    show (((x :: xs ++ ['\n']).dropWhile isPySpace).reverse.dropWhile isPySpace).reverse
      = x :: xs
    rw [List.cons_append, List.dropWhile_cons_of_neg (by simp [hx])]
    have hrev : (x :: (xs ++ ['\n'])).reverse = '\n' :: (x :: xs).reverse := by
      rw [← List.cons_append, List.reverse_append]
      rfl
    rw [hrev, List.dropWhile_cons_of_pos (by decide), h2]
    simp

theorem title_cache_lookup_append (rec : List Char) :
    ∀ (l1 l2 : List (List Char)), title_cache_lookup rec l1 = .ok none →
    title_cache_lookup rec (l1 ++ l2) = title_cache_lookup rec l2 := by
  intro l1
  induction l1 with
  | nil => intro l2 _; rfl
  | cons line rest ih =>
    intro l2 h
    simp only [title_cache_lookup] at h
    by_cases hp : rec.isPrefixOf line = true
    · rw [if_pos hp] at h
      exfalso
      cases hg : (py_split ',' line).get? 1 with
      | none => rw [hg] at h; exact Except.noConfusion h
      | some fld => rw [hg] at h; simp at h
    · rw [if_neg hp] at h
      simp only [List.cons_append, title_cache_lookup, if_neg hp]
      exact ih l2 h

theorem title_cache_lookup_line (rec T : List Char)
    (hrec : ',' ∉ rec) (hT : ',' ∉ T) (hTs : py_strip T = T) :
    title_cache_lookup rec [title_line rec T] = .ok (some T) := by
  have hpre : rec.isPrefixOf (title_line rec T) = true := by
    simp only [title_line, List.append_assoc]
    exact isPrefixOf_append_self rec _
  have hTn : ',' ∉ T ++ ['\n'] := by
    intro hm
    rcases List.mem_append.1 hm with h | h
    · exact hT h
    · simp at h
  have hsplit : py_split ',' (title_line rec T) = [rec, T ++ ['\n']] := by
    have h1 : title_line rec T = rec ++ ',' :: (T ++ ['\n']) := by
      simp [title_line]
    rw [h1, py_split_append ',' rec _ hrec, py_split_no_sep ',' _ hTn]
  simp only [title_cache_lookup, if_pos hpre, hsplit]
  simp only [List.get?]
  rw [py_strip_append_newline T hTs]

theorem title_line_split (id t : List Char) (hid : ',' ∉ id) (ht : ',' ∉ t) :
    py_split ',' (title_line id t) = [id, t ++ ['\n']] := by
  have htn : ',' ∉ t ++ ['\n'] := by
    intro hm
    rcases List.mem_append.1 hm with h | h
    · exact ht h
    · simp at h
  have h1 : title_line id t = id ++ ',' :: (t ++ ['\n']) := by
    simp [title_line]
  rw [h1, py_split_append ',' id _ hid, py_split_no_sep ',' _ htn]

/-- Modelled from the spec wording of claim C6, for comparison with
`title_cache_lookup`: the first line whose record-id field — the text before
the first comma — equals `record_num` exactly supplies the title (the text
after the first comma, stripped); later duplicates are ignored and lines for
other record ids never match. -/
def title_cache_lookup_spec (record_num : List Char) (lines : List (List Char)) :
    Option (List Char) :=
  match lines.find? (fun line => (py_split ',' line).headI == record_num) with
  | none => none
  | some line =>
    some (py_strip (List.intercalate [','] ((py_split ',' line).drop 1)))

/-- Claim C6 counterexample: looking up record id `12` in a well-formed log
whose first line belongs to record id `123`, the code returns `A` — the title
of the wrong record, because `line.startswith(record_num)` is a prefix test
on the raw line, not an equality test on the id field — while the behaviour
the claim describes returns `B`. -/
theorem C6_prefix_match_counterexample :
    title_cache_lookup "12".data ["123,A\n".data, "12,B\n".data] =
      .ok (some "A".data) ∧
    title_cache_lookup_spec "12".data ["123,A\n".data, "12,B\n".data] =
      some "B".data ∧
    ("A".data : List Char) ≠ "B".data := by
  refine ⟨rfl, rfl, by decide⟩

/-- Claim C6 (amended): on a well-formed title-cache log (lines
`id ++ "," ++ title ++ "\n"` with comma-free ids and comma-free,
strip-invariant titles) and a comma-free `record_num`, the cached lookup of
`find_title_from_inspire_record` returns the title of the FIRST line whose
record-id field has `record_num` as a PREFIX (`line.startswith`), and `none`
when no line does. Later duplicate lines are indeed ignored, but a line whose
id merely extends `record_num` (e.g. id `123` for lookup `12`) can win, so
lines of different record ids can match. -/
theorem C6_title_lookup_prefix_match :
    ∀ (rec : List Char) (pairs : List (List Char × List Char)),
    ',' ∉ rec →
    (∀ p ∈ pairs, ',' ∉ p.1 ∧ ',' ∉ p.2 ∧ py_strip p.2 = p.2) →
    title_cache_lookup rec (pairs.map (fun p => title_line p.1 p.2)) =
      .ok ((pairs.find? (fun p => rec.isPrefixOf p.1)).map (fun p => p.2)) := by
  intro rec pairs hrec
  induction pairs with
  | nil => intro _; rfl
  | cons p ps ih =>
    intro hall
    obtain ⟨hp1, hp2, hp3⟩ := hall p (List.mem_cons_self p ps)
    have hallps : ∀ q ∈ ps, ',' ∉ q.1 ∧ ',' ∉ q.2 ∧ py_strip q.2 = q.2 :=
      fun q hq => hall q (List.mem_cons_of_mem p hq)
    have hcond : rec.isPrefixOf (title_line p.1 p.2) = rec.isPrefixOf p.1 := by
      have h1 : title_line p.1 p.2 = p.1 ++ ',' :: (p.2 ++ ['\n']) := by
        simp [title_line]
      rw [h1, isPrefixOf_stops ',' rec p.1 (p.2 ++ ['\n']) hrec]
    simp only [List.map_cons]
    by_cases hpre : rec.isPrefixOf p.1 = true
    · have hsplit := title_line_split p.1 p.2 hp1 hp2
      simp only [title_cache_lookup, hcond, if_pos hpre, hsplit]
      simp only [List.get?]
      rw [py_strip_append_newline p.2 hp3]
      rw [List.find?_cons, hpre]
      rfl
    · have hpreb : rec.isPrefixOf p.1 = false := by
        cases h : rec.isPrefixOf p.1 with
        | false => rfl
        | true => exact absurd h hpre
      simp only [title_cache_lookup, hcond, if_neg hpre]
      rw [List.find?_cons, hpreb]
      exact ih hallps

/-- Witness for claim C6: the amended lookup characterization at a concrete
two-line log; the first line (id `123`) wins for lookup `12`. -/
theorem C6_title_lookup_prefix_match_witness :
    title_cache_lookup "12".data
      ([(("123".data : List Char), ("A".data : List Char)),
        ("12".data, "B".data)].map (fun p => title_line p.1 p.2)) =
      .ok (([(("123".data : List Char), ("A".data : List Char)),
        ("12".data, "B".data)].find?
          (fun p => "12".data.isPrefixOf p.1)).map (fun p => p.2)) :=
  C6_title_lookup_prefix_match "12".data
    [("123".data, "A".data), ("12".data, "B".data)] (by decide) (by decide)

/-- Claim C7 (code bug): a failed fetch yields the sentinel `'No title'`, and
a JSON path broken by a missing dictionary key yields the sentinel through
the `except KeyError` clause; but only `KeyError` is caught, so for the
entirely plausible response `{"hits": {"hits": []}}` (zero search hits) the
subscript `[0]` raises an uncaught `IndexError` and the function does not
return a string at all, contradicting totality. -/
theorem C7_empty_hits_raises_index_error :
    find_title (fun _ => none) 0 "123".data false ⟨[], [], []⟩ =
      .ok (.str "No title".data, ⟨enqueue 0 [], [], []⟩) ∧
    find_title (fun _ => some (Json.obj [])) 0 "123".data false ⟨[], [], []⟩ =
      .ok (.str "No title".data, ⟨enqueue 0 [], [], []⟩) ∧
    find_title
      (fun _ => some (Json.obj [("hits".data,
        Json.obj [("hits".data, Json.arr [])])]))
      0 "123".data true ⟨[], [], []⟩ = .error .indexError := by
  refine ⟨rfl, rfl, rfl⟩

/-- The INSPIRE literature payload whose fixed JSON path holds the (string)
title `t`; used to instantiate claim C8. -/
def c8_payload (t : List Char) : Json :=
  Json.obj [("hits".data, Json.obj [("hits".data, Json.arr [Json.obj
    [("metadata".data, Json.obj [("titles".data, Json.arr [Json.obj
      [("title".data, Json.str t)]])])]])])]

/-- Claim C8 counterexample: with the network returning the title `A,B`
(a comma inside a title is perfectly legal), the first cached call returns
`A,B` and appends the line `1,A,B\n`; the second call is served from that
line but `line.split(',')[1]` keeps only the text between the first and
second commas, so it returns `A` — the two calls do not return the identical
string. -/
theorem C8_comma_title_counterexample :
    find_title (fun _ => some (c8_payload "A,B".data)) 0 "1".data true
        ⟨[], [], []⟩ =
      .ok (.str "A,B".data, ⟨enqueue 0 [], [], ["1,A,B\n".data]⟩) ∧
    find_title (fun _ => some Json.null) 1 "1".data true
        ⟨enqueue 0 [], [], ["1,A,B\n".data]⟩ =
      .ok (.str "A".data, ⟨enqueue 0 [], [], ["1,A,B\n".data]⟩) ∧
    ("A,B".data : List Char) ≠ "A".data := by
  refine ⟨rfl, rfl, by decide⟩

/-- Claim C8 (amended): for a comma-free record id and a comma-free,
strip-invariant (no surrounding whitespace) title, a cached call that misses
the title cache fetches the title, returns it, and appends exactly one line
`record_id,title\n`; every further cached call — under any network behaviour
and clock — is served from that line, returns the identical string, and
leaves the state (hence the cache line count) unchanged. For titles with
commas or surrounding whitespace the returned strings differ, as the
counterexample shows. -/
theorem C8_resolve_title_idempotent
    (net net2 : List Char → Option Json) (now now2 : ℚ)
    (rec T : List Char) (st : ManagerState) (r : Json)
    (hlookup : title_cache_lookup rec st.title_log = .ok none)
    (hnet : net (title_query_url rec) = some r)
    (hex : extract_title r = .ok (.str T))
    (hrec : ',' ∉ rec) (hT : ',' ∉ T) (hTs : py_strip T = T) :
    find_title net now rec true st =
      .ok (.str T,
           { st with
              queue := enqueue now st.queue,
              title_log := st.title_log ++ [title_line rec T] }) ∧
    find_title net2 now2 rec true
      { st with
         queue := enqueue now st.queue,
         title_log := st.title_log ++ [title_line rec T] } =
      .ok (.str T,
           { st with
              queue := enqueue now st.queue,
              title_log := st.title_log ++ [title_line rec T] }) := by
  constructor
  · simp [find_title, make_api_request, make_api_request.network_path,
      hlookup, hnet, hex, py_format]
  · have h1 : title_cache_lookup rec (st.title_log ++ [title_line rec T]) =
        .ok (some T) := by
      rw [title_cache_lookup_append rec st.title_log _ hlookup]
      exact title_cache_lookup_line rec T hrec hT hTs
    simp [find_title, h1]

/-- Witness for claim C8: the idempotence theorem at record id `1` and title
`X`. -/
theorem C8_resolve_title_idempotent_witness :
    find_title (fun _ => some (c8_payload "X".data)) 0 "1".data true
        ⟨[], [], []⟩ =
      .ok (.str "X".data,
        { queue := enqueue 0 [], resp_cache := [],
          title_log := [] ++ [title_line "1".data "X".data] }) ∧
    find_title (fun _ => some (c8_payload "X".data)) 2 "1".data true
        { queue := enqueue 0 [], resp_cache := [],
          title_log := [] ++ [title_line "1".data "X".data] } =
      .ok (.str "X".data,
        { queue := enqueue 0 [], resp_cache := [],
          title_log := [] ++ [title_line "1".data "X".data] }) :=
  C8_resolve_title_idempotent (fun _ => some (c8_payload "X".data))
    (fun _ => some (c8_payload "X".data)) 0 2 "1".data "X".data
    ⟨[], [], []⟩ (c8_payload "X".data) rfl rfl rfl
    (by decide) (by decide) (by decide)
